import Mathlib

/-!
Shallow embedding of the chell command shell (src/chell.c): the escape
sequence decoder, the line editor, the history ring, the tokenizer and
dispatcher, and the command registry, together with theorems settling the
claims of the specification against this code.

Modelling conventions.  Bytes are natural numbers; C int values that can be
negative (edit cursor, last character seen, recall cursor, extended
characters) are integers.  A C string buffer is modelled by the list of its
bytes up to the null terminator; writing the terminator at position n is
modelled by truncating the list to length n.  Handler function pointers are
opaque references modelled as natural numbers, with Option for nullable
pointers.  Output emitted through outChar and chell_printf at the line
editor level is collected into a byte list; at the chell_ProcessChar level
(prompt, line ends, handler output) it is not modelled, matching use with a
caller supplied output call-back, and the value returned by
chell_ProcessChar is modelled as the byte list of the returned string
(empty list for the empty string).
-/

namespace Chell

/-- Configuration constants from chell.h. -/
def MAX_STR : Nat := 64

/-- Maximum number of parameter words, from chell.h. -/
def MAX_PARAMETERS : Nat := 16

/-- Line buffer length, from chell.h: (MAX_PARAMETERS+1)*MAX_STR + MAX_PARAMETERS = 1104. -/
def MAX_TOTAL_COMMAND_CHARS : Nat := (MAX_PARAMETERS + 1) * MAX_STR + MAX_PARAMETERS

/-- Depth of the recall history ring, from chell.h. -/
def MAX_HISTORY : Nat := 16

/-- Maximum number of registered commands, from chell.h. -/
def MAX_COMMANDS : Nat := 64

/-! Return values of processEscapes, from the anonymous enum in chell.c.
The enumerators from ESC_UP_ARROW on are declared to follow the kEscapes
table order, but ESC_TAB is pinned to 9 in the middle of the list, so the
later enumerators are shifted by one relative to the table indices. -/

/-- Escape sequence started but matched nothing. -/
def ESC_UNHANDLED : Int := -2

/-- Still collecting an escape sequence. -/
def ESC_PROCESSING : Int := -1

/-- Not in an escape sequence; treat the byte as a regular character. -/
def ESC_NO_ACTION : Int := 0

/-- Up arrow code. -/
def ESC_UP_ARROW : Int := 1

/-- Down arrow code. -/
def ESC_DOWN_ARROW : Int := 2

/-- Right arrow code. -/
def ESC_RIGHT_ARROW : Int := 3

/-- Left arrow code. -/
def ESC_LEFT_ARROW : Int := 4

/-- F1 code. -/
def ESC_F1 : Int := 5

/-- F2 code. -/
def ESC_F2 : Int := 6

/-- F3 code. -/
def ESC_F3 : Int := 7

/-- F4 code. -/
def ESC_F4 : Int := 8

/-- Tab: not an escape sequence, pinned to the tab character 9 in the enum. -/
def ESC_TAB : Int := 9

/-- F5 code. -/
def ESC_F5 : Int := 10

/-- F6 code. -/
def ESC_F6 : Int := 11

/-- F7 code. -/
def ESC_F7 : Int := 12

/-- F8 code. -/
def ESC_F8 : Int := 13

/-- F9 code. -/
def ESC_F9 : Int := 14

/-- Delete key code. -/
def ESC_DEL : Int := 15

/-- Home key code. -/
def ESC_HOME : Int := 16

/-- End key code. -/
def ESC_END : Int := 17

/-- The escape sequence table kEscapes from processEscapes, sixteen rows of
six bytes each (five sequence bytes plus the terminating null of the C
string literal; shorter sequences are null padded). -/
def kEscapes : List (List Nat) :=
  [ [0x1B, 0x5B, 0x41, 0, 0, 0],
    [0x1B, 0x5B, 0x42, 0, 0, 0],
    [0x1B, 0x5B, 0x43, 0, 0, 0],
    [0x1B, 0x5B, 0x44, 0, 0, 0],
    [0x1B, 0x4F, 0x50, 0, 0, 0],
    [0x1B, 0x4F, 0x51, 0, 0, 0],
    [0x1B, 0x4F, 0x52, 0, 0, 0],
    [0x1B, 0x4F, 0x53, 0, 0, 0],
    [0x1B, 0x5B, 0x31, 0x35, 0x7E, 0],
    [0x1B, 0x5B, 0x31, 0x37, 0x7E, 0],
    [0x1B, 0x5B, 0x31, 0x38, 0x7E, 0],
    [0x1B, 0x5B, 0x31, 0x39, 0x7E, 0],
    [0x1B, 0x5B, 0x32, 0x30, 0x7E, 0],
    [0x1B, 0x5B, 0x33, 0x7E, 0, 0],
    [0x1B, 0x5B, 0x31, 0x7E, 0, 0],
    [0x1B, 0x5B, 0x34, 0x7E, 0, 0] ]

/-- Result of comparing the accumulated escape bytes against one table row. -/
inductive RowRes where
  | matched
  | ongoing
  | mismatch
deriving DecidableEq

/-- Inner loop of the table scan in processEscapes: compare accumulated
bytes against one row, position by position.  The fuel argument is the
number of accumulated positions left to compare (escIdx - i in the C
loop); when it runs out, every accumulated byte matched but the row wants
more bytes (the i >= escIdx exit of the C loop). -/
def rowScanAux (esc row : List Nat) (i : Nat) : Nat → RowRes
  | 0 => RowRes.ongoing
  | rem + 1 =>
    if esc.getD i 0 = row.getD i 0 then
      if row.getD (i + 1) 0 = 0 then RowRes.matched
      else rowScanAux esc row (i + 1) rem
    else RowRes.mismatch

/-- Compare the whole accumulated escape buffer against one table row. -/
def rowScan (esc row : List Nat) : RowRes :=
  rowScanAux esc row 0 esc.length

/-- Outer loop of the table scan in processEscapes.  A full match clears
the accumulator and returns the 1-based row index; a row that is still a
prefix returns ESC_PROCESSING at once; exhausting the table clears the
accumulator and returns ESC_UNHANDLED. -/
def escTableScan (esc : List Nat) (rows : List (List Nat)) (rowIdx : Nat) : List Nat × Int :=
  match rows with
  | [] => ([], ESC_UNHANDLED)
  | r :: rest =>
    match rowScan esc r with
    | RowRes.matched => ([], Int.ofNat rowIdx + 1)
    | RowRes.ongoing => (esc, ESC_PROCESSING)
    | RowRes.mismatch => escTableScan esc rest (rowIdx + 1)

/-- processEscapes from chell.c.  The state is the accumulated escape bytes
(the nonzero prefix of the static escapeChars buffer; input bytes are
assumed nonzero, as a written null is indistinguishable from the cleared
buffer in the C code).  Returns the new accumulator and the status code.
On the escape start byte the C code first memsets the buffer and only then
tests for a buffered double escape, so that test reads the just-cleared
buffer and can never succeed; the dead test is reproduced literally. -/
def processEscapes (esc : List Nat) (c : Nat) : List Nat × Int :=
  if c = 0x1B then
    if esc.length = 1 ∧ ([] : List Nat).getD 0 0 = 0x1B then
      ([], ESC_NO_ACTION)
    else
      ([0x1B], ESC_PROCESSING)
  else if esc.length = 0 then
    (esc, ESC_NO_ACTION)
  else
    let esc := if esc.length < 5 then esc ++ [c] else esc
    escTableScan esc kEscapes 0

/-- One entry of the command registration table (Cmd_struct in chell.c).
The command name is the byte list of the string; the handler is an opaque
non-null reference; hint lists are not modelled (never read). -/
structure Cmd_struct where
  cmd : List Nat
  handler : Nat
  help : Option (List Nat)
deriving DecidableEq

instance : Inhabited Cmd_struct := ⟨⟨[], 0, none⟩⟩

/-- Registry state: the registered entries g_cmd[0..g_numRegCmds) (slots
past the count hold null command pointers and are skipped by every reader,
so only the registered prefix is carried) and the g_helpInitialized flag. -/
structure RegState where
  g_cmd : List Cmd_struct
  g_helpInitialized : Bool
deriving DecidableEq

/-- Opaque reference for the built-in handle_help handler. -/
def handle_help : Nat := 1

/-- Byte list of the string of the built-in help command name. -/
def kHelp : List Nat := [0x68, 0x65, 0x6C, 0x70]

/-- Byte list of the help text registered for the built-in help command. -/
def kHelpText : List Nat :=
  [0x74, 0x68, 0x69, 0x73, 0x20, 0x68, 0x65, 0x6C, 0x70, 0x20, 0x6D, 0x65,
   0x73, 0x73, 0x61, 0x67, 0x65]

/-- First-use initialization inside chell_RegisterHandler (lines 146-151):
set g_helpInitialized, then recursively register the built-in help
handler.  The recursive call runs with the flag already set, so it takes
the plain path; its capacity check is repeated here and its null-handler
check passes trivially (handle_help is not null), which is why the call is
inlined rather than recursive. -/
def registerHelpFirst (st : RegState) : RegState :=
  if st.g_helpInitialized then st
  else
    let st := { st with g_helpInitialized := true }
    if MAX_COMMANDS ≤ st.g_cmd.length then st
    else { st with g_cmd := st.g_cmd ++ [⟨kHelp, handle_help, some kHelpText⟩] }

/-- chell_RegisterHandler from chell.c: fail if the table is full, fail if
the handler pointer is null, auto-register help on first use, then append
the entry and count it. -/
def chell_RegisterHandler (st : RegState) (cmd : List Nat) (handler : Option Nat)
    (help : Option (List Nat)) : RegState × Bool :=
  if MAX_COMMANDS ≤ st.g_cmd.length then (st, false)
  else
    match handler with
    | none => (st, false)
    | some h =>
      let st := registerHelpFirst st
      ({ st with g_cmd := st.g_cmd ++ [⟨cmd, h, help⟩] }, true)

/-- Loop of uniquePartialMatch: scan registered commands for those having
str as a prefix; a second match returns -1 at once.  strncmp(str, cmd,
strlen(str)) == 0 is exactly the prefix test for null-free byte strings. -/
def upmLoop (str : List Nat) (cmds : List Cmd_struct) (i : Nat) (midx : Int) : Int :=
  match cmds with
  | [] => midx
  | e :: rest =>
    if str.isPrefixOf e.cmd then
      if midx ≠ -1 then -1
      else upmLoop str rest (i + 1) (Int.ofNat i)
    else upmLoop str rest (i + 1) midx

/-- uniquePartialMatch from chell.c: index of the unique registered command
having str as a prefix, or -1 if none or several match. -/
def uniquePartialMatch (reg : RegState) (str : List Nat) : Int :=
  upmLoop str reg.g_cmd 0 (-1)

/-- removeCharAtIndex from chell.c: remove the byte at idx, shifting the
tail (terminator included) left; fails outside [0, strlen). -/
def removeCharAtIndex (line : List Nat) (idx : Int) : List Nat × Bool :=
  let len : Int := line.length
  if idx < 0 ∨ len ≤ idx then (line, false)
  else (line.take idx.toNat ++ line.drop (idx.toNat + 1), true)

/-- insertCharAtIndex from chell.c: insert c before idx, shifting the tail
(terminator included) right; fails outside [0, strlen] or when the line
is already at maximum length for the given buffer size. -/
def insertCharAtIndex (line : List Nat) (idx : Int) (c : Nat) (lineSize : Nat) :
    List Nat × Bool :=
  let len : Int := line.length
  if idx < 0 ∨ len < idx then (line, false)
  else if lineSize ≤ line.length + 1 then (line, false)
  else (line.take idx.toNat ++ c :: line.drop idx.toNat, true)

/-- Line editor state: the file globals lineBuf, lineIdx, editIdx and
lastChar of chell.c. -/
structure EditState where
  lineBuf : List Nat
  lineIdx : Int
  editIdx : Int
  lastChar : Int
deriving DecidableEq

/-- The byte written by a C assignment line[i] = c, on the
string-as-byte-list abstraction: writing inside the string replaces the
byte, writing over the terminator (i = length) extends the string by one,
and writing past the terminator leaves the string content unchanged. -/
def writeAt (l : List Nat) (i : Nat) (c : Nat) : List Nat :=
  if i < l.length then l.set i c
  else if i = l.length then l ++ [c]
  else l

/-- The bytes printed by chell_printf for the format argument
&lineBuf[i]: the tail of the string from index i. -/
def tailFrom (l : List Nat) (i : Int) : List Nat :=
  l.drop i.toNat

/-- The bytes emitted by a loop outputting lineBuf[i] for i in [lo, hi). -/
def sliceD (l : List Nat) (lo hi : Int) : List Nat :=
  (List.range (hi - lo).toNat).map fun k => l.getD (lo.toNat + k) 0

/-- Tail of every editLine branch that does not return early (lines
524-532 of chell.c): record the latest extended character, and on line end
reset the edit index and the latest character. -/
def finishEdit (st : EditState) (out : List Nat) (rcode : Bool) (extChar : Int) :
    EditState × List Nat × Bool :=
  let st := { st with lastChar := extChar }
  let st := if rcode then { st with editIdx := -1, lastChar := -1 } else st
  (st, out, rcode)

/-- Tab completion loop of editLine (lines 474-480): while editIdx < len,
copy the command byte at position lineIdx into the buffer, echo the buffer
byte at editIdx, and advance both indices.  The fuel is the remaining
iteration count (len - editIdx), which the loop decrements by one each
pass. -/
def tabLoopAux (cmd : List Nat) (st : EditState) (out : List Nat) : Nat → EditState × List Nat
  | 0 => (st, out)
  | rem + 1 =>
    let c := cmd.getD st.lineIdx.toNat 0
    let buf := writeAt st.lineBuf st.lineIdx.toNat c
    let o := buf.getD st.editIdx.toNat 0
    tabLoopAux cmd
      { st with lineBuf := buf, editIdx := st.editIdx + 1, lineIdx := st.lineIdx + 1 }
      (out ++ [o]) rem

/-- First step of editLine (lines 394-399): on the first edit of a line,
establish the edit index at the end of the line, and make sure the buffer
is empty when the line is new. -/
def establishEdit (st : EditState) : EditState :=
  if st.editIdx < 0 then
    { st with editIdx := st.lineIdx,
              lineBuf := if st.lineIdx = 0 then [] else st.lineBuf }
  else st

/-- Body of editLine after the edit index is established: the if-else
chain of chell.c lines 401-522, returning the new editor state, the bytes
emitted to the terminal, and whether a line end was recognized.  Branches
fall through to finishEdit; the final catch-all returns directly without
recording the latest character, as in the C code. -/
def editLineCore (reg : RegState) (extChar : Int) (st : EditState) :
    EditState × List Nat × Bool :=
  if extChar = 0x7F ∨ extChar = 0x08 then
    if st.editIdx > 0 then
      let ei := st.editIdx - 1
      let buf := (removeCharAtIndex st.lineBuf ei).1
      let li := st.lineIdx - 1
      let out := 0x08 :: (tailFrom buf ei ++ [0x20, 0x08]) ++
        List.replicate (li - ei).toNat 0x08
      finishEdit { st with lineBuf := buf, editIdx := ei, lineIdx := li } out false extChar
    else
      finishEdit st [] false extChar
  else if extChar = ESC_DEL then
    let r := removeCharAtIndex st.lineBuf st.editIdx
    if r.2 then
      let out := (tailFrom r.1 st.editIdx ++ [0x20]) ++
        List.replicate (st.lineIdx - st.editIdx).toNat 0x08
      finishEdit { st with lineBuf := r.1, lineIdx := st.lineIdx - 1 } out false extChar
    else
      finishEdit st [] false extChar
  else if extChar = ESC_LEFT_ARROW ∧ st.editIdx > 0 then
    finishEdit { st with editIdx := st.editIdx - 1 } [0x08] false extChar
  else if extChar = ESC_RIGHT_ARROW ∧ st.editIdx < st.lineIdx then
    finishEdit { st with editIdx := st.editIdx + 1 }
      [st.lineBuf.getD st.editIdx.toNat 0] false extChar
  else if extChar = ESC_HOME then
    finishEdit { st with editIdx := if st.editIdx > 0 then 0 else st.editIdx }
      (List.replicate st.editIdx.toNat 0x08) false extChar
  else if extChar = ESC_END then
    finishEdit
      { st with editIdx := if st.editIdx < st.lineIdx then st.lineIdx else st.editIdx }
      (sliceD st.lineBuf st.editIdx st.lineIdx) false extChar
  else if extChar = ESC_TAB ∧ st.editIdx = st.lineIdx then
    let idx := uniquePartialMatch reg st.lineBuf
    if 0 ≤ idx then
      let cmd := (reg.g_cmd.getD idx.toNat default).cmd
      let len : Int := cmd.length
      let r := tabLoopAux cmd st [] (len - st.editIdx).toNat
      finishEdit r.1 r.2 false extChar
    else
      finishEdit st [] false extChar
  else if 0x20 ≤ extChar ∧ extChar ≤ 0x7E then
    let r := insertCharAtIndex st.lineBuf st.editIdx extChar.toNat
      (MAX_TOTAL_COMMAND_CHARS + 1)
    if r.2 then
      let ei := st.editIdx + 1
      let li := st.lineIdx + 1
      let out := extChar.toNat :: (tailFrom r.1 ei ++ List.replicate (li - ei).toNat 0x08)
      finishEdit { st with lineBuf := r.1, editIdx := ei, lineIdx := li } out false extChar
    else
      finishEdit st [] false extChar
  else if extChar = 0x0D then
    finishEdit st [] (st.lastChar ≠ 0x0A) extChar
  else if extChar = 0x0A then
    finishEdit st [] (st.lastChar ≠ 0x0D) extChar
  else
    (st, [], false)

/-- editLine from chell.c: establish the edit index, then run the edit
branch for the extended character.  Returns the new state, the emitted
bytes, and true when the character completed the line. -/
def editLine (reg : RegState) (extChar : Int) (st : EditState) :
    EditState × List Nat × Bool :=
  editLineCore reg extChar (establishEdit st)

/-- isEmptyLine from chell.c: a line with only carriage returns, line
feeds and spaces has no command to process. -/
def isEmptyLine (line : List Nat) : Bool :=
  line.all fun c => c = 0x0D ∨ c = 0x0A ∨ c = 0x20

/-- Accumulator loop of strtok-style splitting: walk the bytes, cutting a
token at every delimiter run. -/
def tokAux (d : Nat → Bool) : List Nat → List Nat → List (List Nat)
  | [], cur => if cur.isEmpty then [] else [cur.reverse]
  | c :: rest, cur =>
    if d c then
      if cur.isEmpty then tokAux d rest []
      else cur.reverse :: tokAux d rest []
    else tokAux d rest (c :: cur)

/-- Split a byte list into the maximal runs of non-delimiter bytes, as
successive strtok calls produce them. -/
def tokenizeBy (d : Nat → Bool) (l : List Nat) : List (List Nat) :=
  tokAux d l []

/-- The strtok delimiter set of processLine: space and comma. -/
def isDelim (c : Nat) : Bool := c = 0x20 ∨ c = 0x2C

/-- Outcome of processLine: whether a handler matched, the command word
handed to the table scan (none when strtok found no token), and the
parameter words. -/
structure LineResult where
  handled : Bool
  cmd : Option (List Nat)
  params : List (List Nat)
deriving DecidableEq

/-- Table scan of processLine: first registered entry whose command string
compares equal to the command word. -/
def findCmd (cmds : List Cmd_struct) (w : List Nat) : Bool :=
  match cmds with
  | [] => false
  | e :: rest => if e.cmd = w then true else findCmd rest w

/-- processLine from chell.c: split the line on space and comma runs into
a command word and at most MAX_PARAMETERS parameter words (excess tokens
dropped), then scan the registration table for an exact match; on a match
the handler is invoked and true is reported, otherwise the unhandled
handler runs and false is reported.  A line that is nonempty but contains
only delimiters leaves strtok with no token; the C code then passes a null
command pointer to strcmp, which is undefined, and the model reports it
unhandled with no command word. -/
def processLine (reg : RegState) (line : List Nat) : LineResult :=
  if line.isEmpty then ⟨false, none, []⟩
  else
    match tokenizeBy isDelim line with
    | [] => ⟨false, none, []⟩
    | cmd :: rest =>
      let params := rest.take MAX_PARAMETERS
      if findCmd reg.g_cmd cmd then ⟨true, some cmd, params⟩
      else ⟨false, some cmd, params⟩

/-- Record of one processLine invocation: the full line as dispatched and
its parse and dispatch outcome. -/
structure DispatchEvent where
  line : List Nat
  res : LineResult
deriving DecidableEq

/-- Everything one chell_ProcessChar call reports: the returned string,
whether the line editor reported line completion, and the dispatch
performed for a completed non-empty line. -/
structure StepOut where
  ret : List Nat
  completed : Bool
  evt : Option DispatchEvent
deriving DecidableEq

/-- Whole shell state: the registry, the line editor globals, the static
escape accumulator and recall index of chell_ProcessChar, and the history
ring with its write index. -/
structure ShellState where
  reg : RegState
  edit : EditState
  escapeChars : List Nat
  recallIdx : Int
  histBuf : List (List Nat)
  histIdx : Nat
deriving DecidableEq

/-- chell_ProcessChar from chell.c: auto-register help on first use,
handle the interrupt byte, run the escape decoder, handle history recall
for the arrow codes, hand every other extended character to the line
editor, and on completion of a non-empty line dispatch it and push it into
the history ring. -/
def chell_ProcessChar (st0 : ShellState) (c : Nat) : ShellState × StepOut :=
  let st :=
    if st0.reg.g_helpInitialized then st0
    else
      { st0 with
        reg := (chell_RegisterHandler { st0.reg with g_helpInitialized := true }
          kHelp (some handle_help) (some kHelpText)).1 }
  let st :=
    if c = 0x03 then
      { st with edit := { lineBuf := [], lineIdx := 0, editIdx := -1, lastChar := -1 } }
    else st
  let pe := processEscapes st.escapeChars c
  let st := { st with escapeChars := pe.1 }
  let esc := pe.2
  if esc = ESC_PROCESSING then
    (st, ⟨[], false, none⟩)
  else if esc = ESC_UP_ARROW then
    let i : Int :=
      if st.recallIdx < 0 then ((MAX_HISTORY : Int) + st.histIdx - 1) % (MAX_HISTORY : Int)
      else ((MAX_HISTORY : Int) + st.recallIdx - 1) % (MAX_HISTORY : Int)
    let slot := st.histBuf.getD i.toNat []
    if slot.isEmpty then (st, ⟨[], false, none⟩)
    else
      let st :=
        { st with recallIdx := i,
                  edit := { st.edit with lineBuf := slot, lineIdx := slot.length } }
      (st, ⟨slot, false, none⟩)
  else if esc = ESC_DOWN_ARROW then
    if st.recallIdx < 0 then (st, ⟨[], false, none⟩)
    else
      let i : Int := (st.recallIdx + 1) % (MAX_HISTORY : Int)
      if i = (st.histIdx : Int) then (st, ⟨[], false, none⟩)
      else
        let slot := st.histBuf.getD i.toNat []
        let st :=
          { st with recallIdx := i,
                    edit := { st.edit with lineBuf := slot, lineIdx := slot.length } }
        (st, ⟨slot, false, none⟩)
  else
    let extChar : Int := if esc = ESC_NO_ACTION then (c : Int) else esc
    let r := editLine st.reg extChar st.edit
    let st := { st with edit := r.1 }
    if r.2.2 then
      let full := st.edit.lineBuf.take st.edit.lineIdx.toNat
      let st :=
        { st with edit := { st.edit with lineBuf := full, lineIdx := 0 },
                  recallIdx := -1 }
      if isEmptyLine full then (st, ⟨[], true, none⟩)
      else
        let res := processLine st.reg full
        let st :=
          { st with histBuf := st.histBuf.set st.histIdx full,
                    histIdx := (st.histIdx + 1) % MAX_HISTORY }
        (st, ⟨[], true, some ⟨full, res⟩⟩)
    else
      (st, ⟨[], false, none⟩)

/-- The line editor globals at program start: empty buffer, zero length,
unestablished edit index, no previous character. -/
def initialEdit : EditState :=
  { lineBuf := [], lineIdx := 0, editIdx := -1, lastChar := -1 }

/-- The whole shell state at program start: nothing registered, empty
history ring, no recall in progress, no escape sequence in flight. -/
def initState : ShellState :=
  { reg := { g_cmd := [], g_helpInitialized := false },
    edit := initialEdit,
    escapeChars := [],
    recallIdx := -1,
    histBuf := List.replicate MAX_HISTORY [],
    histIdx := 0 }

/-- Feed a byte list through chell_ProcessChar one byte at a time,
collecting the per-call reports. -/
def feedChars (st : ShellState) : List Nat → ShellState × List StepOut
  | [] => (st, [])
  | c :: cs =>
    let r := chell_ProcessChar st c
    let rest := feedChars r.1 cs
    (rest.1, r.2 :: rest.2)

/-- The state after feeding a byte list. -/
def runState (st : ShellState) (cs : List Nat) : ShellState :=
  (feedChars st cs).1

/-- How many of the calls reported line completion while feeding a byte
list. -/
def countCompletions (st : ShellState) (cs : List Nat) : Nat :=
  ((feedChars st cs).2.filter fun o => o.completed).length

/-- Feed a byte list through the escape decoder alone, collecting the
status code of each call. -/
def runEsc (esc : List Nat) : List Nat → List Nat × List Int
  | [] => (esc, [])
  | c :: cs =>
    let r := processEscapes esc c
    let rest := runEsc r.1 cs
    (rest.1, r.2 :: rest.2)

/-- The three byte up-arrow key sequence. -/
def upSeq : List Nat := [0x1B, 0x5B, 0x41]

/-- One up-arrow key press: feed its three bytes and report the string
returned for the final byte. -/
def upPress (st : ShellState) : ShellState × List Nat :=
  let s1 := (chell_ProcessChar st 0x1B).1
  let s2 := (chell_ProcessChar s1 0x5B).1
  let r := chell_ProcessChar s2 0x41
  (r.1, r.2.ret)

/-- A run of up-arrow key presses, collecting the returned strings in
order. -/
def upPresses (st : ShellState) : Nat → ShellState × List (List Nat)
  | 0 => (st, [])
  | k + 1 =>
    let r := upPress st
    let rest := upPresses r.1 k
    (rest.1, r.2 :: rest.2)

/-- The byte stream that types the given lines, each terminated by a
carriage return. -/
def linesStream (ls : List (List Nat)) : List Nat :=
  ls.foldr (fun l acc => l ++ 0x0D :: acc) []

/-- Write consecutive history slots starting at index i, as consecutive
completed lines do. -/
def writeSlots (buf : List (List Nat)) (i : Nat) : List (List Nat) → List (List Nat)
  | [] => buf
  | l :: ls => writeSlots (buf.set i l) (i + 1) ls

/-- The spec-level edit cursor position: the established edit index, or
the end of the line while the index is still unestablished (establishing
it sets it to the line length). -/
def effCursor (st : EditState) : Int :=
  if st.editIdx < 0 then st.lineIdx else st.editIdx

/-- The registry after the automatic first-use registration of the
built-in help command. -/
def reg0 : RegState :=
  { g_cmd := [⟨kHelp, handle_help, some kHelpText⟩], g_helpInitialized := true }

/-- The fresh shell state with the help auto-registration already
performed, as the first chell_ProcessChar call leaves the registry. -/
def startState : ShellState :=
  { initState with reg := reg0 }

/-!  Theorems.  -/

/-- C1: the CRLF pair is NOT absorbed as one logical terminator.  Feeding
the bytes of the letter a, carriage return, line feed (and likewise with
line feed first) from the fresh state produces TWO line completion
events, not one: when the first terminator byte completes the line,
editLine resets its latest-character tracking to -1, so the second byte of
the pair no longer sees its partner and signals completion of a second
(empty) line. -/
theorem crlf_pair_double_completion :
    countCompletions initState [0x61, 0x0D, 0x0A] = 2 ∧
    countCompletions initState [0x61, 0x0A, 0x0D] = 2 := by
  decide

/-- C2: the Delete-key escape sequence 1B 5B 33 7E decodes to code 14, not
to ESC_DEL = 15 (the enum pins ESC_TAB to 9 mid-list, shifting the later
enumerators off the 1-based kEscapes row indices the decoder returns).
Code 14 is ignored by the line editor, so Delete does not remove the
character at the cursor; ESC_DEL is produced by the Home sequence
1B 5B 31 7E instead, and it is ESC_DEL that forward-deletes. -/
theorem delete_key_code_mismatch :
    (runEsc [] [0x1B, 0x5B, 0x33, 0x7E]).2 =
      [ESC_PROCESSING, ESC_PROCESSING, ESC_PROCESSING, ESC_F9] ∧
    ESC_F9 ≠ ESC_DEL ∧
    editLine reg0 ESC_F9 ⟨[0x61, 0x62], 2, 0, -1⟩ = (⟨[0x61, 0x62], 2, 0, -1⟩, [], false) ∧
    (runEsc [] [0x1B, 0x5B, 0x31, 0x7E]).2.getLastD 0 = ESC_DEL ∧
    editLine reg0 ESC_DEL ⟨[0x61, 0x62], 2, 0, -1⟩ =
      (⟨[0x62], 1, 0, ESC_DEL⟩, [0x62, 0x20, 0x08, 0x08], false) := by
  decide

/-- C7: receiving the escape-start byte while exactly one escape-start
byte is buffered restarts collection (the accumulator holds exactly the
new escape byte) and reports Gathering, never NotEscape. -/
theorem double_escape_restarts_gathering :
    processEscapes [0x1B] 0x1B = ([0x1B], ESC_PROCESSING) ∧
    ESC_PROCESSING ≠ ESC_NO_ACTION := by
  decide

/-- C3 counterexample: from the fresh state (where only the auto
registered help command exists), typing the letter x and carriage return
dispatches an Unhandled line, yet that line IS stored in history slot 0
and the write index advances, contradicting the claim that only
successfully dispatched lines are pushed. -/
theorem unhandled_line_stored_in_history :
    (feedChars initState [0x78, 0x0D]).2.filterMap StepOut.evt =
      [⟨[0x78], ⟨false, some [0x78], []⟩⟩] ∧
    (runState initState [0x78, 0x0D]).histBuf.getD 0 [] = [0x78] ∧
    (runState initState [0x78, 0x0D]).histIdx = 1 := by
  decide

/-- C4 counterexample: typing a comma b and carriage return dispatches the
command word a alone, because the tokenizer splits on commas as well as
spaces, whereas the first whitespace-delimited token of the sequence is
the whole a comma b. -/
theorem comma_splits_command_word :
    ((feedChars initState [0x61, 0x2C, 0x62, 0x0D]).2.filterMap StepOut.evt).map
        (fun e => e.res.cmd) = [some [0x61]] ∧
    (tokenizeBy (fun c => c = 0x20) [0x61, 0x2C, 0x62]).head? =
      some [0x61, 0x2C, 0x62] ∧
    some [0x61] ≠ some ([0x61, 0x2C, 0x62] : List Nat) := by
  decide

/-- C5 counterexample: complete the lines a and b, recall once (returns
b), press the interrupt byte, then recall again.  The claim says the
recall cursor resets on the abort, so the recall after the interrupt
should restart at the slot before the next-write slot (slot 1, holding b);
the code leaves the recall cursor in place and returns a instead. -/
theorem ctrl_c_recall_not_reset :
    ((feedChars initState
        [0x61, 0x0D, 0x62, 0x0D, 0x1B, 0x5B, 0x41, 0x03, 0x1B, 0x5B, 0x41]).2.getLastD
        ⟨[], false, none⟩).ret = [0x61] ∧
    (runState initState
        [0x61, 0x0D, 0x62, 0x0D, 0x1B, 0x5B, 0x41, 0x03, 0x1B, 0x5B, 0x41]).histIdx = 2 ∧
    (runState initState
        [0x61, 0x0D, 0x62, 0x0D, 0x1B, 0x5B, 0x41, 0x03, 0x1B, 0x5B, 0x41]).histBuf.getD 1 []
      = [0x62] ∧
    ([0x61] : List Nat) ≠ [0x62] := by
  decide

/-- C9: chell_RegisterHandler returns false when the table is at capacity
or the handler reference is null, leaving the registry state (entries,
count, help-initialized flag) exactly unchanged in both failure cases;
otherwise it returns true. -/
theorem register_capacity_null_all_or_nothing (st : RegState) (cmd : List Nat)
    (h : Option Nat) (hp : Option (List Nat)) :
    ((MAX_COMMANDS ≤ st.g_cmd.length ∨ h = none) →
      chell_RegisterHandler st cmd h hp = (st, false)) ∧
    (st.g_cmd.length < MAX_COMMANDS → h ≠ none →
      (chell_RegisterHandler st cmd h hp).2 = true) := by
  constructor
  · rintro (hful | rfl)
    · simp [chell_RegisterHandler, hful]
    · cases hc : decide (MAX_COMMANDS ≤ st.g_cmd.length) <;>
        simp_all [chell_RegisterHandler]
  · intro hlt hn
    match h with
    | none => exact absurd rfl hn
    | some hd => simp [chell_RegisterHandler, Nat.not_le.mpr hlt]

/-- C9 witness: a full table rejects with unchanged state, a null handler
rejects with unchanged state, and an ordinary registration in a non-full
table succeeds. -/
theorem register_capacity_null_all_or_nothing_witness :
    chell_RegisterHandler ⟨List.replicate 64 ⟨[], 0, none⟩, true⟩ [0x61] (some 7) none =
      (⟨List.replicate 64 ⟨[], 0, none⟩, true⟩, false) ∧
    chell_RegisterHandler reg0 [0x61] none none = (reg0, false) ∧
    (chell_RegisterHandler reg0 [0x61] (some 7) none).2 = true :=
  ⟨(register_capacity_null_all_or_nothing ⟨List.replicate 64 ⟨[], 0, none⟩, true⟩
      [0x61] (some 7) none).1 (Or.inl (by decide)),
   (register_capacity_null_all_or_nothing reg0 [0x61] none none).1 (Or.inr rfl),
   (register_capacity_null_all_or_nothing reg0 [0x61] (some 7) none).2 (by decide)
     (by decide)⟩

/-- C8: feeding a backspace byte (0x08 or 0x7F) with an empty line buffer
is a no-op: buffer content, buffer length and the edit cursor position are
unchanged, no output byte is emitted, and no line completion is
reported.  The edit cursor hypothesis covers both reachable empty-line
shapes: unestablished (negative) and established at 0. -/
theorem backspace_empty_line_noop (reg : RegState) (st : EditState) (c : Int)
    (hc : c = 0x08 ∨ c = 0x7F) (hbuf : st.lineBuf = []) (hlen : st.lineIdx = 0)
    (hei : st.editIdx ≤ 0) :
    (editLine reg c st).1.lineBuf = [] ∧ (editLine reg c st).1.lineIdx = 0 ∧
    effCursor (editLine reg c st).1 = effCursor st ∧
    (editLine reg c st).2.1 = [] ∧ (editLine reg c st).2.2 = false := by
  obtain ⟨lb, li, ei, lc⟩ := st
  simp only at hbuf hlen hei
  subst hbuf hlen
  rcases lt_or_eq_of_le hei with hlt | rfl
  · rcases hc with rfl | rfl <;>
      simp [editLine, establishEdit, editLineCore, finishEdit, effCursor, hlt]
  · rcases hc with rfl | rfl <;>
      simp [editLine, establishEdit, editLineCore, finishEdit, effCursor]

/-- C8 witness: backspace on the initial empty editor state. -/
theorem backspace_empty_line_noop_witness :
    (editLine reg0 0x08 initialEdit).1.lineBuf = [] ∧
    (editLine reg0 0x08 initialEdit).1.lineIdx = 0 ∧
    effCursor (editLine reg0 0x08 initialEdit).1 = effCursor initialEdit ∧
    (editLine reg0 0x08 initialEdit).2.1 = [] ∧
    (editLine reg0 0x08 initialEdit).2.2 = false :=
  backspace_empty_line_noop reg0 initialEdit 0x08 (Or.inl rfl) rfl rfl (by decide)

/-- Reading a list with getD inside the length is reading the element. -/
theorem getD_of_lt {α : Type} (xs : List α) (i : Nat) (d : α) (h : i < xs.length) :
    xs.getD i d = xs[i] := by
  induction xs generalizing i with
  | nil => cases h
  | cons a t ih =>
    match i with
    | 0 => rfl
    | j + 1 => exact ih j (by simpa using h)

/-- Running the tab completion loop with the buffer holding the first k
bytes of the command and both indices at k copies the rest of the command
into the buffer and echoes it. -/
theorem tabLoopAux_run (cmd : List Nat) :
    ∀ (fuel k : Nat) (st : EditState) (out : List Nat),
      fuel + k = cmd.length →
      st.lineBuf = cmd.take k → st.editIdx = (k : Int) → st.lineIdx = (k : Int) →
      tabLoopAux cmd st out fuel =
        ({ st with lineBuf := cmd, editIdx := (cmd.length : Int),
                   lineIdx := (cmd.length : Int) }, out ++ cmd.drop k) := by
  intro fuel
  induction fuel with
  | zero =>
    intro k st out hrk hbuf hei hli
    obtain ⟨lb, li, ei, lc⟩ := st
    simp only at hbuf hei hli
    subst hbuf hei hli
    have hk : k = cmd.length := by omega
    subst hk
    simp [tabLoopAux]
  | succ fuel ih =>
    intro k st out hrk hbuf hei hli
    obtain ⟨lb, li, ei, lc⟩ := st
    simp only at hbuf hei hli
    subst hbuf hei hli
    have hklen : k < cmd.length := by omega
    have hgetD : cmd.getD k 0 = cmd[k] := getD_of_lt cmd k 0 hklen
    have hwrite : writeAt (cmd.take k) k (cmd.getD k 0) = cmd.take (k + 1) := by
      rw [hgetD, writeAt]
      have h1 : ¬ k < (cmd.take k).length := by
        simp [List.length_take]
      rw [if_neg h1, if_pos (by simp [List.length_take, Nat.min_eq_left hklen.le])]
      rw [List.take_succ]
      simp [List.getElem?_eq_getElem hklen]
    have hecho : (cmd.take (k + 1)).getD k 0 = cmd[k] := by
      have h2 : k < (cmd.take (k + 1)).length := by
        simp [List.length_take]; omega
      rw [getD_of_lt _ _ _ h2, List.getElem_take]
    rw [tabLoopAux]
    simp only [Int.toNat_ofNat, hwrite, hecho]
    rw [ih (k + 1) ⟨cmd.take (k + 1), (k : Int) + 1, (k : Int) + 1, lc⟩ (out ++ [cmd[k]])
      (by omega) rfl (by push_cast; ring) (by push_cast; ring)]
    rw [List.drop_eq_getElem_cons hklen]
    simp

/-- C10: with exactly one command registered, pressing Tab on an empty
line with the cursor at the end completes the full name of that command
into the buffer and echoes it: the empty buffer is a unique prefix of the
lone command, so the no-match rule does not apply. -/
theorem tab_single_command_completes (e : Cmd_struct) (b : Bool) (st : EditState)
    (hbuf : st.lineBuf = []) (hlen : st.lineIdx = 0) (hei : st.editIdx ≤ 0) :
    editLine ⟨[e], b⟩ ESC_TAB st =
      (⟨e.cmd, (e.cmd.length : Int), (e.cmd.length : Int), ESC_TAB⟩, e.cmd, false) := by
  obtain ⟨lb, li, ei, lc⟩ := st
  simp only at hbuf hlen hei
  subst hbuf hlen
  have hloop := tabLoopAux_run e.cmd e.cmd.length 0 ⟨[], 0, 0, lc⟩ [] (by simp)
    (by simp) rfl rfl
  have hcore : editLineCore ⟨[e], b⟩ ESC_TAB ⟨[], 0, 0, lc⟩ =
      (⟨e.cmd, (e.cmd.length : Int), (e.cmd.length : Int), ESC_TAB⟩, e.cmd, false) := by
    have hfuel : ((e.cmd.length : Int) - 0).toNat = e.cmd.length := by omega
    rw [editLineCore]
    norm_num [ESC_DEL, ESC_LEFT_ARROW, ESC_RIGHT_ARROW, ESC_HOME, ESC_END, ESC_TAB,
      uniquePartialMatch, upmLoop, List.isPrefixOf, hfuel]
    rw [hloop]
    simp [finishEdit, ESC_TAB]
  rcases lt_or_eq_of_le hei with hlt | rfl
  · rw [editLine, establishEdit, if_pos hlt]
    simpa using hcore
  · rw [editLine, establishEdit, if_neg (by simp)]
    exact hcore

/-- C10 witness: the fresh editor state with only the help command
registered; Tab completes and echoes the four bytes of the word help. -/
theorem tab_single_command_completes_witness :
    editLine ⟨[⟨kHelp, handle_help, some kHelpText⟩], true⟩ ESC_TAB initialEdit =
      (⟨kHelp, (kHelp.length : Int), (kHelp.length : Int), ESC_TAB⟩, kHelp, false) :=
  tab_single_command_completes ⟨kHelp, handle_help, some kHelpText⟩ true initialEdit
    rfl rfl (by decide)

set_option maxHeartbeats 2000000 in
/-- C3 amended: whenever a call dispatches a completed non-empty line (to
a matching handler or to the unhandled handler alike), that line is
written into the history slot at the write index and the write index
advances, regardless of whether the dispatch succeeded. -/
theorem history_push_regardless_of_dispatch (st : ShellState) (c : Nat) (e : DispatchEvent)
    (h : (chell_ProcessChar st c).2.evt = some e) :
    (chell_ProcessChar st c).1.histBuf = st.histBuf.set st.histIdx e.line ∧
    (chell_ProcessChar st c).1.histIdx = (st.histIdx + 1) % MAX_HISTORY := by
  simp only [chell_ProcessChar] at h ⊢
  split_ifs at h ⊢ <;> simp only [StepOut.evt] at h <;> try simp at h
  all_goals (rcases h with ⟨rfl⟩ | rfl; simp)

/-- C3 amended witness: the unhandled line of the single letter x is
pushed into slot 0 of the fresh history ring. -/
theorem history_push_regardless_of_dispatch_witness :
    (chell_ProcessChar (runState initState [0x78]) 0x0D).1.histBuf =
      (runState initState [0x78]).histBuf.set (runState initState [0x78]).histIdx
        [0x78] ∧
    (chell_ProcessChar (runState initState [0x78]) 0x0D).1.histIdx =
      ((runState initState [0x78]).histIdx + 1) % MAX_HISTORY :=
  history_push_regardless_of_dispatch (runState initState [0x78]) 0x0D
    ⟨[0x78], ⟨false, some [0x78], []⟩⟩ (by decide)

set_option maxHeartbeats 2000000 in
/-- C5 amended: the recall cursor is reset to not-in-progress whenever a
line is completed, but the interrupt byte (Ctrl-C) only discards the
line buffer and edit state and leaves the recall cursor unchanged (stated
for the quiescent decoder state, no escape sequence in flight). -/
theorem recall_reset_on_completion_not_on_interrupt :
    (∀ (st : ShellState) (c : Nat), (chell_ProcessChar st c).2.completed = true →
      (chell_ProcessChar st c).1.recallIdx = -1) ∧
    (∀ st : ShellState, st.escapeChars = [] →
      (chell_ProcessChar st 0x03).1.recallIdx = st.recallIdx) := by
  constructor
  · intro st c h
    simp only [chell_ProcessChar] at h ⊢
    split_ifs at h ⊢ <;> simp only [StepOut.completed] at h <;> simp_all
  · intro st hesc
    have hpe : processEscapes [] 0x03 = ([], ESC_NO_ACTION) := by decide
    have hedit : ∀ reg, editLine reg 3 ⟨[], 0, -1, -1⟩ = (⟨[], 0, 0, -1⟩, [], false) := by
      intro reg
      rw [editLine, establishEdit]
      norm_num [editLineCore, ESC_DEL, ESC_LEFT_ARROW, ESC_RIGHT_ARROW, ESC_HOME,
        ESC_END, ESC_TAB]
    obtain ⟨reg, edit, esc, ri, hbf, hix⟩ := st
    simp only at hesc
    subst hesc
    by_cases hreg : reg.g_helpInitialized <;>
      simp [chell_ProcessChar, hreg, hpe, hedit, ESC_PROCESSING, ESC_NO_ACTION,
        ESC_UP_ARROW, ESC_DOWN_ARROW]

/-- C5 amended witness: completing the line with the letter a resets the
recall cursor, and the interrupt byte on the fresh state leaves it
unchanged. -/
theorem recall_reset_on_completion_not_on_interrupt_witness :
    (chell_ProcessChar (runState initState [0x61]) 0x0D).1.recallIdx = -1 ∧
    (chell_ProcessChar initState 0x03).1.recallIdx = initState.recallIdx :=
  ⟨recall_reset_on_completion_not_on_interrupt.1 (runState initState [0x61]) 0x0D
      (by decide),
   recall_reset_on_completion_not_on_interrupt.2 initState (by decide)⟩

theorem processEscapes_regular (c : Nat) (hc : c ≠ 0x1B) :
    processEscapes [] c = ([], ESC_NO_ACTION) := by
  rw [processEscapes, if_neg hc]
  simp

theorem editLineCore_insert (reg : RegState) (c : Nat) (st : EditState)
    (hc1 : 0x20 ≤ c) (hc2 : c ≤ 0x7E)
    (hei : st.editIdx = st.lineIdx) (hli : st.lineIdx = (st.lineBuf.length : Int))
    (hroom : st.lineBuf.length + 1 ≤ MAX_TOTAL_COMMAND_CHARS) :
    editLineCore reg (c : Int) st =
      ({ st with lineBuf := st.lineBuf ++ [c], editIdx := st.editIdx + 1,
                 lineIdx := st.lineIdx + 1, lastChar := (c : Int) }, [c], false) := by
  obtain ⟨lb, li, ei, lc⟩ := st
  simp only at hei hli hroom
  subst hei hli
  simp only [MAX_TOTAL_COMMAND_CHARS] at hroom
  have hins : insertCharAtIndex lb ((lb.length : Nat) : Int) ((c : Int)).toNat
      (MAX_TOTAL_COMMAND_CHARS + 1) = (lb ++ [c], true) := by
    rw [insertCharAtIndex, if_neg (by omega),
      if_neg (by simp only [MAX_TOTAL_COMMAND_CHARS]; omega)]
    simp
  rw [editLineCore]
  simp only [ESC_DEL, ESC_LEFT_ARROW, ESC_RIGHT_ARROW, ESC_HOME, ESC_END, ESC_TAB]
  repeat rw [if_neg (by omega)]
  rw [if_pos (by omega)]
  simp only [hins]
  rw [if_pos trivial]
  have hdrop : tailFrom (lb ++ [c]) ((lb.length : Int) + 1) = [] := by
    have : ((lb.length : Int) + 1).toNat = lb.length + 1 := by omega
    simp [tailFrom, this]
  simp [finishEdit, hdrop]
theorem editLine_insert_mid (reg : RegState) (c : Nat) (st : EditState)
    (hc1 : 0x20 ≤ c) (hc2 : c ≤ 0x7E)
    (hei : st.editIdx = st.lineIdx) (hli : st.lineIdx = (st.lineBuf.length : Int))
    (hroom : st.lineBuf.length + 1 ≤ MAX_TOTAL_COMMAND_CHARS) :
    editLine reg (c : Int) st =
      ({ st with lineBuf := st.lineBuf ++ [c], editIdx := st.editIdx + 1,
                 lineIdx := st.lineIdx + 1, lastChar := (c : Int) }, [c], false) := by
  rw [editLine, establishEdit, if_neg (by omega)]
  exact editLineCore_insert reg c st hc1 hc2 hei hli hroom

theorem editLine_insert_fresh (reg : RegState) (c : Nat) (st : EditState)
    (hc1 : 0x20 ≤ c) (hc2 : c ≤ 0x7E)
    (hli : st.lineIdx = 0) (hei : st.editIdx < 0) :
    editLine reg (c : Int) st = (⟨[c], 1, 1, (c : Int)⟩, [c], false) := by
  obtain ⟨lb, li, ei, lc⟩ := st
  simp only at hli hei
  subst hli
  rw [editLine, establishEdit, if_pos hei]
  simp only [if_pos rfl]
  have := editLineCore_insert reg c ⟨[], 0, 0, lc⟩ hc1 hc2 rfl (by simp)
    (by norm_num [MAX_TOTAL_COMMAND_CHARS, MAX_PARAMETERS, MAX_STR])
  simpa using this

theorem editLineCore_cr (reg : RegState) (st : EditState)
    (hlast : st.lastChar ≠ 0x0A) :
    editLineCore reg 0x0D st = ({ st with editIdx := -1, lastChar := -1 }, [], true) := by
  rw [editLineCore]
  simp only [ESC_DEL, ESC_LEFT_ARROW, ESC_RIGHT_ARROW, ESC_HOME, ESC_END, ESC_TAB]
  repeat rw [if_neg (by omega)]
  rw [if_pos (by norm_num)]
  simp [finishEdit, hlast]

theorem processChar_quiet (st : ShellState) (c : Nat) (ed : EditState) (out : List Nat)
    (hinit : st.reg.g_helpInitialized = true) (hesc : st.escapeChars = [])
    (hc3 : c ≠ 0x03) (hc27 : c ≠ 0x1B)
    (hed : editLine st.reg (c : Int) st.edit = (ed, out, false)) :
    chell_ProcessChar st c = ({ st with edit := ed }, ⟨[], false, none⟩) := by
  have hpe := processEscapes_regular c hc27
  obtain ⟨reg, edit, esc, ri, hbf, hix⟩ := st
  simp only at hinit hesc hed
  subst hesc
  simp [chell_ProcessChar, hinit, hc3, hpe, hed, ESC_PROCESSING, ESC_NO_ACTION,
    ESC_UP_ARROW, ESC_DOWN_ARROW]

theorem processChar_complete_push (st : ShellState) (c : Nat) (ed : EditState)
    (out : List Nat)
    (hinit : st.reg.g_helpInitialized = true) (hesc : st.escapeChars = [])
    (hc3 : c ≠ 0x03) (hc27 : c ≠ 0x1B)
    (hed : editLine st.reg (c : Int) st.edit = (ed, out, true))
    (hne : isEmptyLine (ed.lineBuf.take ed.lineIdx.toNat) = false) :
    chell_ProcessChar st c =
      ({ st with edit := { ed with lineBuf := ed.lineBuf.take ed.lineIdx.toNat,
                                   lineIdx := 0 },
                 recallIdx := -1,
                 histBuf := st.histBuf.set st.histIdx (ed.lineBuf.take ed.lineIdx.toNat),
                 histIdx := (st.histIdx + 1) % MAX_HISTORY },
       ⟨[], true, some ⟨ed.lineBuf.take ed.lineIdx.toNat,
         processLine st.reg (ed.lineBuf.take ed.lineIdx.toNat)⟩⟩) := by
  have hpe := processEscapes_regular c hc27
  obtain ⟨reg, edit, esc, ri, hbf, hix⟩ := st
  simp only at hinit hesc hed
  subst hesc
  simp [chell_ProcessChar, hinit, hc3, hpe, hed, hne, ESC_PROCESSING, ESC_NO_ACTION,
    ESC_UP_ARROW, ESC_DOWN_ARROW]
theorem feed_printables (cs : List Nat) : ∀ st : ShellState,
    st.reg.g_helpInitialized = true → st.escapeChars = [] →
    st.edit.editIdx = st.edit.lineIdx →
    st.edit.lineIdx = (st.edit.lineBuf.length : Int) →
    (∀ c ∈ cs, 0x20 ≤ c ∧ c ≤ 0x7E) →
    st.edit.lineBuf.length + cs.length ≤ MAX_TOTAL_COMMAND_CHARS →
    feedChars st cs =
      ({ st with edit := { lineBuf := st.edit.lineBuf ++ cs,
                           lineIdx := st.edit.lineIdx + cs.length,
                           editIdx := st.edit.editIdx + cs.length,
                           lastChar := cs.foldl (fun _ x => (x : Int)) st.edit.lastChar } },
       List.replicate cs.length ⟨[], false, none⟩) := by
  induction cs with
  | nil =>
    intro st _ _ _ _ _ _
    obtain ⟨reg, ⟨lb, li, ei, lc⟩, esc, ri, hbf, hix⟩ := st
    simp [feedChars]
  | cons c cs ih =>
    intro st hinit hesc hei hli hpr hlen
    have hc := hpr c (List.mem_cons_self c cs)
    have hstep := processChar_quiet st c _ _ hinit hesc (by omega) (by omega)
      (editLine_insert_mid st.reg c st.edit hc.1 hc.2 hei hli
        (by simp at hlen; omega))
    rw [feedChars]
    simp only [hstep]
    rw [ih ({ st with edit := { lineBuf := st.edit.lineBuf ++ [c],
                                lineIdx := st.edit.lineIdx + 1,
                                editIdx := st.edit.editIdx + 1,
                                lastChar := (c : Int) } })
      hinit hesc (by simp [hei]) (by simp [hli])
      (fun x hx => hpr x (List.mem_cons_of_mem c hx)) (by simp at hlen ⊢; omega)]
    obtain ⟨reg, ⟨lb, li, ei, lc⟩, esc, ri, hbf, hix⟩ := st
    simp only at hei hli ⊢
    subst hei hli
    simp [List.replicate_succ]
    omega
theorem feed_line_chars (l : List Nat) (st : ShellState)
    (hinit : st.reg.g_helpInitialized = true) (hesc : st.escapeChars = [])
    (hli : st.edit.lineIdx = 0) (hei : st.edit.editIdx < 0)
    (hpr : ∀ c ∈ l, 0x20 ≤ c ∧ c ≤ 0x7E) (hlen : l.length ≤ MAX_TOTAL_COMMAND_CHARS)
    (hne : l ≠ []) :
    feedChars st l =
      ({ st with edit := { lineBuf := l, lineIdx := (l.length : Int),
                           editIdx := (l.length : Int),
                           lastChar := l.foldl (fun _ x => (x : Int)) st.edit.lastChar } },
       List.replicate l.length ⟨[], false, none⟩) := by
  match l, hne with
  | c :: cs, _ =>
    have hc := hpr c (by simp)
    have hstep := processChar_quiet st c _ _ hinit hesc (by omega) (by omega)
      (editLine_insert_fresh st.reg c st.edit hc.1 hc.2 hli hei)
    rw [feedChars]
    simp only [hstep]
    rw [feed_printables cs ({ st with edit := ⟨[c], 1, 1, (c : Int)⟩ }) hinit hesc
      (by simp) (by simp) (fun x hx => hpr x (by simp [hx]))
      (by simp at hlen ⊢; omega)]
    obtain ⟨reg, ⟨lb, li, ei, lc⟩, esc, ri, hbf, hix⟩ := st
    simp [List.replicate_succ]
    omega

theorem feedChars_append (st : ShellState) (a b : List Nat) :
    feedChars st (a ++ b) =
      ((feedChars (feedChars st a).1 b).1,
       (feedChars st a).2 ++ (feedChars (feedChars st a).1 b).2) := by
  induction a generalizing st with
  | nil => simp [feedChars]
  | cons c cs ih => simp [feedChars, ih]

theorem foldl_lastChar_mem : ∀ (bs : List Nat) (init : Int), bs ≠ [] →
    ∃ c ∈ bs, bs.foldl (fun _ x => (x : Int)) init = (c : Int) := by
  intro bs
  induction bs with
  | nil => intro init h; exact absurd rfl h
  | cons c cs ih =>
    intro init _
    cases cs with
    | nil => exact ⟨c, by simp, by simp⟩
    | cons d ds =>
      obtain ⟨x, hx, he⟩ := ih (c : Int) (by simp)
      exact ⟨x, List.mem_cons_of_mem c hx, by simpa using he⟩

theorem editLine_cr_mid (reg : RegState) (st : EditState)
    (hei : 0 ≤ st.editIdx) (hlast : st.lastChar ≠ 0x0A) :
    editLine reg 0x0D st = ({ st with editIdx := -1, lastChar := -1 }, [], true) := by
  rw [editLine, establishEdit, if_neg (by omega)]
  exact editLineCore_cr reg st hlast

theorem feed_one_line (l : List Nat) (st : ShellState)
    (hinit : st.reg.g_helpInitialized = true) (hesc : st.escapeChars = [])
    (hli : st.edit.lineIdx = 0) (hei : st.edit.editIdx < 0)
    (hpr : ∀ c ∈ l, 0x20 ≤ c ∧ c ≤ 0x7E) (hlen : l.length ≤ MAX_TOTAL_COMMAND_CHARS)
    (hne : isEmptyLine l = false) :
    runState st (l ++ [0x0D]) =
      { st with edit := { lineBuf := l, lineIdx := 0, editIdx := -1, lastChar := -1 },
                recallIdx := -1,
                histBuf := st.histBuf.set st.histIdx l,
                histIdx := (st.histIdx + 1) % MAX_HISTORY } ∧
    (feedChars st (l ++ [0x0D])).2.filterMap StepOut.evt =
      [⟨l, processLine st.reg l⟩] := by
  have hlne : l ≠ [] := by
    intro h
    subst h
    simp [isEmptyLine] at hne
  have hfl := feed_line_chars l st hinit hesc hli hei hpr hlen hlne
  have hlast : l.foldl (fun _ x => (x : Int)) st.edit.lastChar ≠ (0x0A : Int) := by
    obtain ⟨x, hx, he⟩ := foldl_lastChar_mem l st.edit.lastChar hlne
    have := (hpr x hx).1
    omega
  have hcr := editLine_cr_mid st.reg
    (⟨l, (l.length : Int), (l.length : Int),
      l.foldl (fun _ x => (x : Int)) st.edit.lastChar⟩ : EditState)
    (by simp) hlast
  have htake : (l.take ((l.length : Int)).toNat) = l := by simp
  have hpush := processChar_complete_push
    ({ st with edit := ⟨l, (l.length : Int), (l.length : Int),
        l.foldl (fun _ x => (x : Int)) st.edit.lastChar⟩ }) 0x0D
    (⟨l, (l.length : Int), -1, -1⟩ : EditState) [] hinit hesc (by omega) (by omega)
    (by simpa using hcr) (by simpa [htake] using hne)
  constructor
  · rw [runState, feedChars_append, hfl]
    simp only [feedChars, hpush]
    obtain ⟨reg, ⟨lb, li, ei, lc⟩, esc, ri, hbf, hix⟩ := st
    simp
  · rw [feedChars_append, hfl]
    simp only [feedChars, hpush]
    simp
theorem tokAux_ne_nil_of_cur (d : Nat → Bool) :
    ∀ (bs cur : List Nat), cur ≠ [] → tokAux d bs cur ≠ [] := by
  intro bs
  induction bs with
  | nil =>
    intro cur h
    simp [tokAux, h]
  | cons c cs ih =>
    intro cur h
    rw [tokAux]
    by_cases hd : d c
    · simp only [hd, if_true, List.isEmpty_eq_true, h, if_neg h]
      simp
    · rw [if_neg hd]
      exact ih (c :: cur) (by simp)

theorem tokAux_ne_nil (d : Nat → Bool) :
    ∀ (bs cur : List Nat), (∃ c ∈ bs, d c = false) → tokAux d bs cur ≠ [] := by
  intro bs
  induction bs with
  | nil =>
    intro cur h
    simp at h
  | cons c cs ih =>
    intro cur h
    rw [tokAux]
    by_cases hd : d c
    · obtain ⟨x, hx, hdx⟩ := h
      have hxcs : x ∈ cs := by
        rcases List.mem_cons.mp hx with rfl | hmem
        · rw [hd] at hdx; cases hdx
        · exact hmem
      by_cases hcur : cur.isEmpty
      · simp only [hd, if_true, hcur, if_pos]
        exact ih [] ⟨x, hxcs, hdx⟩
      · simp only [hd, if_true, hcur, if_neg]
        simp
    · simp only [hd, if_false]
      exact tokAux_ne_nil_of_cur d cs (c :: cur) (by simp)

theorem tokenizeBy_ne_nil (d : Nat → Bool) (l : List Nat)
    (h : ∃ c ∈ l, d c = false) : tokenizeBy d l ≠ [] :=
  tokAux_ne_nil d l [] h

theorem processLine_cmd (reg : RegState) (l : List Nat) (hl : l ≠ [])
    (h : tokenizeBy isDelim l ≠ []) :
    (processLine reg l).cmd = (tokenizeBy isDelim l).head? := by
  rw [processLine, if_neg (by simpa using hl)]
  match htk : tokenizeBy isDelim l with
  | [] => exact absurd htk h
  | cmd :: rest =>
    by_cases hf : findCmd reg.g_cmd cmd <;> simp [hf]

theorem processChar_uninit (st : ShellState) (c : Nat)
    (h : st.reg.g_helpInitialized = false) :
    chell_ProcessChar st c =
      chell_ProcessChar
        { st with reg := (chell_RegisterHandler { st.reg with g_helpInitialized := true }
            kHelp (some handle_help) (some kHelpText)).1 } c := by
  have hreg : ((chell_RegisterHandler { st.reg with g_helpInitialized := true }
      kHelp (some handle_help) (some kHelpText)).1).g_helpInitialized = true := by
    by_cases hful : MAX_COMMANDS ≤ st.reg.g_cmd.length <;>
      simp [chell_RegisterHandler, hful, registerHelpFirst]
  conv_lhs => rw [chell_ProcessChar]
  conv_rhs => rw [chell_ProcessChar]
  simp only [h, hreg, Bool.false_eq_true, if_false, if_true]

theorem feedChars_init_bridge (cs : List Nat) (h : cs ≠ []) :
    feedChars initState cs = feedChars startState cs := by
  match cs, h with
  | c :: cs, _ =>
    have hst : ({ initState with
        reg := (chell_RegisterHandler { initState.reg with g_helpInitialized := true }
          kHelp (some handle_help) (some kHelpText)).1 } : ShellState) = startState := by
      decide
    rw [feedChars, feedChars, processChar_uninit initState c rfl, hst]

set_option maxHeartbeats 1000000 in
/-- C4 amended: for every sequence of printable characters of length at
most the line capacity, containing at least one character that is not a
space or comma, followed by a carriage return from the fresh state, the
run performs exactly one dispatch, and the command word handed to the
dispatcher equals the first token of the sequence split on runs of space
or comma delimiters (a comma also terminates the command word, which is
what falsifies the whitespace-only reading). -/
theorem dispatched_word_eq_first_delim_token (cs : List Nat)
    (hpr : ∀ c ∈ cs, 0x20 ≤ c ∧ c ≤ 0x7E)
    (hlen : cs.length ≤ MAX_TOTAL_COMMAND_CHARS)
    (hnd : ∃ c ∈ cs, isDelim c = false) :
    ((feedChars initState (cs ++ [0x0D])).2.filterMap StepOut.evt).map
        (fun e => e.res.cmd) = [(tokenizeBy isDelim cs).head?] := by
  obtain ⟨w, hw, hwd⟩ := hnd
  have hcsne : cs ≠ [] := by
    intro hc
    subst hc
    cases hw
  have hw32 : w ≠ 0x20 := by
    simp [isDelim] at hwd
    omega
  have hne : isEmptyLine cs = false := by
    have := (hpr w hw).1
    simp [isEmptyLine]
    exact ⟨w, hw, by omega⟩
  have hbridge := feedChars_init_bridge (cs ++ [0x0D]) (by simp)
  have hline := feed_one_line cs startState rfl rfl rfl (by decide) hpr hlen hne
  rw [hbridge, hline.2]
  simp [processLine_cmd startState.reg cs hcsne (tokenizeBy_ne_nil isDelim cs ⟨w, hw, hwd⟩)]

/-- C4 amended witness: typing the five bytes of the text ab, space, c,
carriage return dispatches the command word ab. -/
theorem dispatched_word_eq_first_delim_token_witness :
    ((feedChars initState [0x61, 0x62, 0x20, 0x63, 0x0D]).2.filterMap StepOut.evt).map
        (fun e => e.res.cmd) =
      [(tokenizeBy isDelim [0x61, 0x62, 0x20, 0x63]).head?] :=
  dispatched_word_eq_first_delim_token [0x61, 0x62, 0x20, 0x63] (by decide) (by decide)
    ⟨0x61, by decide, by decide⟩
theorem writeSlots_length : ∀ (slots : List (List Nat)) (buf : List (List Nat)) (i : Nat),
    (writeSlots buf i slots).length = buf.length := by
  intro slots
  induction slots with
  | nil => intro buf i; rfl
  | cons l ls ih =>
    intro buf i
    rw [writeSlots, ih]
    simp

theorem writeSlots_getD : ∀ (slots : List (List Nat)) (buf : List (List Nat)) (i j : Nat),
    i + slots.length ≤ buf.length → j < buf.length →
    (writeSlots buf i slots).getD j [] =
      if i ≤ j ∧ j < i + slots.length then slots.getD (j - i) [] else buf.getD j [] := by
  intro slots
  induction slots with
  | nil =>
    intro buf i j hle hj
    rw [writeSlots]
    rw [if_neg (by simp)]
  | cons l ls ih =>
    intro buf i j hle hj
    rw [writeSlots]
    rw [ih (buf.set i l) (i + 1) j
      (by simp only [List.length_set, List.length_cons] at hle ⊢; omega)
      (by simpa using hj)]
    by_cases hij : i = j
    · subst hij
      rw [if_neg (by omega), if_pos (by simp only [List.length_cons]; omega)]
      simp [List.getD_eq_getElem?_getD, List.getElem?_set_self, (by omega : i < buf.length)]
    · by_cases hin : i + 1 ≤ j ∧ j < i + 1 + ls.length
      · rw [if_pos hin, if_pos (by simp only [List.length_cons]; omega)]
        have : j - i = (j - (i + 1)) + 1 := by omega
        simp [this]
      · rw [if_neg hin, if_neg (by simp only [List.length_cons]; omega)]
        simp [List.getD_eq_getElem?_getD, List.getElem?_set_ne hij]

theorem feed_lines : ∀ (lns : List (List Nat)) (st : ShellState),
    st.reg.g_helpInitialized = true → st.escapeChars = [] →
    st.edit.lineIdx = 0 → st.edit.editIdx = -1 → st.edit.lastChar = -1 →
    (∀ l ∈ lns, (∀ c ∈ l, 0x20 ≤ c ∧ c ≤ 0x7E) ∧
      l.length ≤ MAX_TOTAL_COMMAND_CHARS ∧ isEmptyLine l = false) →
    st.histIdx + lns.length < MAX_HISTORY →
    ∃ buf, runState st (linesStream lns) =
      { st with edit := { lineBuf := buf, lineIdx := 0,
                          editIdx := -1, lastChar := -1 },
                recallIdx := if lns.isEmpty then st.recallIdx else -1,
                histBuf := writeSlots st.histBuf st.histIdx lns,
                histIdx := st.histIdx + lns.length } := by
  intro lns
  induction lns with
  | nil =>
    intro st _ _ hli hei hlast _ _
    obtain ⟨reg, ⟨lb, li, ei, lc⟩, esc, ri, hbf, hix⟩ := st
    simp only at hli hei hlast
    subst hli hei hlast
    exact ⟨lb, by simp [linesStream, runState, feedChars, writeSlots]⟩
  | cons l ls ih =>
    intro st hinit hesc hli hei hlast hall hbound
    have hl := hall l (by simp)
    have hstream : linesStream (l :: ls) = (l ++ [0x0D]) ++ linesStream ls := by
      simp [linesStream]
    have hmod : (st.histIdx + 1) % MAX_HISTORY = st.histIdx + 1 := by
      apply Nat.mod_eq_of_lt
      simp at hbound
      omega
    have h1 := (feed_one_line l st hinit hesc hli (by omega) hl.1 hl.2.1 hl.2.2).1
    rw [runState] at h1
    obtain ⟨buf, hbuf⟩ := ih ({ st with
        edit := { lineBuf := l, lineIdx := 0, editIdx := -1, lastChar := -1 },
        recallIdx := -1,
        histBuf := st.histBuf.set st.histIdx l,
        histIdx := (st.histIdx + 1) % MAX_HISTORY })
      (by simpa using hinit) (by simp [hesc]) (by simp) (by simp) (by simp)
      (fun x hx => hall x (by simp [hx]))
      (by simp only [hmod]; simp at hbound ⊢; omega)
    refine ⟨buf, ?_⟩
    rw [runState, hstream, feedChars_append, h1]
    rw [runState] at hbuf
    rw [hbuf]
    obtain ⟨reg, ⟨lb, li, ei, lc⟩, esc, ri, hbf, hix⟩ := st
    simp only [hmod] at *
    rw [show writeSlots (hbf.set hix l) (hix + 1) ls = writeSlots hbf hix (l :: ls)
      from rfl]
    simp
    omega
theorem upPress_spec (st : ShellState) (hinit : st.reg.g_helpInitialized = true)
    (hesc : st.escapeChars = []) :
    upPress st =
      (let i : Int := if st.recallIdx < 0
         then ((MAX_HISTORY : Int) + st.histIdx - 1) % (MAX_HISTORY : Int)
         else ((MAX_HISTORY : Int) + st.recallIdx - 1) % (MAX_HISTORY : Int)
       let slot := st.histBuf.getD i.toNat []
       if slot.isEmpty then (st, [])
       else ({ st with recallIdx := i,
                       edit := { st.edit with lineBuf := slot,
                                              lineIdx := (slot.length : Int) } }, slot)) := by
  have hpe1 : processEscapes [] 0x1B = ([0x1B], ESC_PROCESSING) := by decide
  have hpe2 : processEscapes [0x1B] 0x5B = ([0x1B, 0x5B], ESC_PROCESSING) := by decide
  have hpe3 : processEscapes [0x1B, 0x5B] 0x41 = ([], 1) := by decide
  obtain ⟨reg, edit, esc, ri, hbf, hix⟩ := st
  simp only at hinit hesc
  subst hesc
  have h1 : chell_ProcessChar ⟨reg, edit, [], ri, hbf, hix⟩ 0x1B =
      (⟨reg, edit, [0x1B], ri, hbf, hix⟩, ⟨[], false, none⟩) := by
    simp [chell_ProcessChar, hinit, hpe1, ESC_PROCESSING]
  have h2 : chell_ProcessChar ⟨reg, edit, [0x1B], ri, hbf, hix⟩ 0x5B =
      (⟨reg, edit, [0x1B, 0x5B], ri, hbf, hix⟩, ⟨[], false, none⟩) := by
    simp [chell_ProcessChar, hinit, hpe2, ESC_PROCESSING]
  rw [upPress, h1, h2]
  simp [chell_ProcessChar, hinit, hpe3, ESC_PROCESSING, ESC_NO_ACTION,
    ESC_UP_ARROW, ESC_DOWN_ARROW]
  split <;> (split <;> simp)
theorem upPresses_run (L : List (List Nat)) (N : Nat) (hNL : L.length = N)
    (hN : 1 ≤ N) (hN15 : N ≤ 15)
    (hb : List (List Nat))
    (hslot : ∀ j, j < MAX_HISTORY → hb.getD j [] = if j < N then L.getD j [] else [])
    (hne : ∀ l ∈ L, l ≠ []) :
    ∀ (k m : Nat) (st : ShellState), m + k ≤ N →
      st.reg.g_helpInitialized = true → st.escapeChars = [] →
      st.histBuf = hb → st.histIdx = N →
      st.recallIdx = (if m = 0 then (-1 : Int) else ((N - m : Nat) : Int)) →
      (upPresses st k).2 = (List.range k).map (fun j => L.getD (N - 1 - m - j) []) ∧
      (upPresses st k).1.reg = st.reg ∧
      (upPresses st k).1.escapeChars = [] ∧
      (upPresses st k).1.histBuf = hb ∧
      (upPresses st k).1.histIdx = N ∧
      (upPresses st k).1.recallIdx =
        (if m + k = 0 then (-1 : Int) else ((N - (m + k) : Nat) : Int)) := by
  intro p
  induction p with
  | zero =>
    intro m st hmk hinit hesc hhb hhi hri
    simp [upPresses, hesc, hhb, hhi, hri]
  | succ p ih =>
    intro m st hmk hinit hesc hhb hhi hri
    have hi : (if st.recallIdx < 0
        then ((MAX_HISTORY : Int) + st.histIdx - 1) % (MAX_HISTORY : Int)
        else ((MAX_HISTORY : Int) + st.recallIdx - 1) % (MAX_HISTORY : Int)) =
        ((N - m - 1 : Nat) : Int) := by
      rw [hhi, hri]
      by_cases hm : m = 0
      · subst hm
        rw [if_pos (by norm_num)]
        simp only [MAX_HISTORY]
        push_cast
        omega
      · rw [if_neg hm, if_neg (by omega)]
        simp only [MAX_HISTORY]
        push_cast
        omega
    have hlt : N - m - 1 < L.length := by omega
    have hgetD : L.getD (N - m - 1) [] = L[N - m - 1] :=
      getD_of_lt L (N - m - 1) [] hlt
    have hslotne : L.getD (N - m - 1) [] ≠ [] := by
      rw [hgetD]
      exact hne _ (List.getElem_mem hlt)
    have hslotv : hb.getD (N - m - 1) [] = L.getD (N - m - 1) [] := by
      rw [hslot (N - m - 1) (by simp only [MAX_HISTORY]; omega)]
      rw [if_pos (by omega)]
    have hpress : upPress st =
        ({ st with recallIdx := ((N - m - 1 : Nat) : Int),
                   edit := { st.edit with lineBuf := L.getD (N - m - 1) [],
                                          lineIdx := ((L.getD (N - m - 1) []).length : Int) } },
         L.getD (N - m - 1) []) := by
      rw [upPress_spec st hinit hesc]
      simp only [hi, Int.toNat_natCast, hhb, hslotv]
      rw [if_neg (by simpa using hslotne)]
    obtain ⟨ih1, ih2, ih3, ih4, ih5, ih6⟩ := ih (m + 1)
      ({ st with recallIdx := ((N - m - 1 : Nat) : Int),
                 edit := { st.edit with lineBuf := L.getD (N - m - 1) [],
                                        lineIdx := ((L.getD (N - m - 1) []).length : Int) } })
      (by omega) (by simpa using hinit) (by simpa using hesc) (by simpa using hhb)
      (by simpa using hhi) (by simp [Nat.sub_sub, Nat.add_comm])
    rw [upPresses]
    simp only [hpress]
    refine ⟨?_, by simpa using ih2, ih3, ih4, ih5, ?_⟩
    · rw [ih1, List.range_succ_eq_map, List.map_cons, List.map_map]
      rw [show N - 1 - m - 0 = N - m - 1 from by omega]
      congr 1
      apply List.map_congr_left
      intro j _
      simp only [Function.comp]
      congr 1
      omega
    · rw [ih6, if_neg (by omega), if_neg (by omega)]
      congr 1
      omega
theorem upPresses_add (a b : Nat) : ∀ st : ShellState,
    upPresses st (a + b) =
      ((upPresses (upPresses st a).1 b).1,
       (upPresses st a).2 ++ (upPresses (upPresses st a).1 b).2) := by
  induction a with
  | zero =>
    intro st
    simp [upPresses]
  | succ a ih =>
    intro st
    have hab : a + 1 + b = a + b + 1 := by omega
    rw [hab, upPresses, upPresses, ih (upPress st).1]
    simp

theorem range_map_getD_reverse (L : List (List Nat)) :
    (List.range L.length).map (fun j => L.getD (L.length - 1 - j) []) = L.reverse := by
  apply List.ext_getElem
  · simp
  · intro i hia hib
    simp only [List.getElem_reverse, List.getElem_map, List.getElem_range]
    have hlt : L.length - 1 - i < L.length := by
      simp at hia
      omega
    exact getD_of_lt L (L.length - 1 - i) [] hlt

set_option maxHeartbeats 1000000 in
/-- C6: after N distinct non-empty lines are completed from the fresh
state (0 < N < ring capacity), N successive up-arrow key presses return
all N lines in reverse chronological order, and the (N+1)th press returns
the empty string (no more history) while leaving the recall cursor where
the Nth press put it (slot 0). -/
theorem recall_backward_reverse_order (N : Nat) (L : List (List Nat))
    (h0 : 0 < N) (h16 : N < MAX_HISTORY) (hNL : L.length = N)
    (hpr : ∀ l ∈ L, ∀ c ∈ l, 0x20 ≤ c ∧ c ≤ 0x7E)
    (hsz : ∀ l ∈ L, l.length ≤ MAX_TOTAL_COMMAND_CHARS)
    (hne : ∀ l ∈ L, isEmptyLine l = false)
    (hdup : L.Nodup) :
    (upPresses (runState initState (linesStream L)) (N + 1)).2 = L.reverse ++ [[]] ∧
    (upPresses (runState initState (linesStream L)) (N + 1)).1.recallIdx = 0 ∧
    (upPresses (runState initState (linesStream L)) N).1.recallIdx = 0 := by
  have hLne : L ≠ [] := by
    intro h
    subst h
    simp at hNL
    omega
  have hstreamne : linesStream L ≠ [] := by
    match L, hLne with
    | l :: ls, _ =>
      simp [linesStream]
  have hbridge : runState initState (linesStream L) = runState startState (linesStream L) := by
    rw [runState, runState, feedChars_init_bridge (linesStream L) hstreamne]
  have hlne : ∀ l ∈ L, l ≠ [] := by
    intro l hl he
    subst he
    have := hne [] hl
    simp [isEmptyLine] at this
  obtain ⟨buf, hfeed⟩ := feed_lines L startState rfl rfl rfl rfl rfl
    (fun l hl => ⟨hpr l hl, hsz l hl, hne l hl⟩)
    (by simpa [startState, initState, hNL] using h16)
  rw [hbridge, hfeed]
  have hN15 : N ≤ 15 := by
    simp [MAX_HISTORY] at h16
    omega
  have hslot : ∀ j, j < MAX_HISTORY →
      (writeSlots startState.histBuf startState.histIdx L).getD j [] =
        if j < N then L.getD j [] else [] := by
    intro j hj
    rw [show startState.histBuf = List.replicate MAX_HISTORY [] from rfl,
      show startState.histIdx = 0 from rfl]
    rw [writeSlots_getD L (List.replicate MAX_HISTORY []) 0 j
      (by simp [hNL, MAX_HISTORY] at h16 ⊢; omega) (by simpa using hj)]
    simp only [Nat.zero_add, Nat.zero_le, true_and, Nat.sub_zero, hNL]
    split
    · rfl
    · rw [getD_of_lt _ _ _ (by simpa using hj), List.getElem_replicate]
  set ST0 : ShellState := { startState with
      edit := { lineBuf := buf, lineIdx := 0, editIdx := -1, lastChar := -1 },
      recallIdx := if L.isEmpty then startState.recallIdx else -1,
      histBuf := writeSlots startState.histBuf startState.histIdx L,
      histIdx := startState.histIdx + L.length } with hST0
  have hrun := upPresses_run L N hNL (by omega) hN15
    (writeSlots startState.histBuf startState.histIdx L) hslot hlne
  obtain ⟨hm1, hm2, hm3, hm4, hm5, hm6⟩ := hrun N 0 ST0
    (by omega) rfl rfl rfl
    (by simp [hST0, startState, initState, hNL])
    (by simp [hST0, startState, initState])
  have hri0 : (upPresses ST0 N).1.recallIdx = (0 : Int) := by
    rw [hm6, if_neg (by omega)]
    simp
  have hlast : upPress (upPresses ST0 N).1 = ((upPresses ST0 N).1, []) := by
    rw [upPress_spec _ (by rw [hm2]; rfl) hm3]
    rw [hri0, hm4]
    rw [if_neg (by norm_num : ¬((0 : Int) < 0))]
    have h15 : (((MAX_HISTORY : Int) + 0 - 1) % (MAX_HISTORY : Int)).toNat = 15 := by
      decide
    have hslot15 : (writeSlots startState.histBuf startState.histIdx L).getD 15 [] = [] := by
      rw [hslot 15 (by norm_num [MAX_HISTORY]), if_neg (by omega)]
    simp only [h15, hslot15]
    simp
  refine ⟨?_, ?_, ?_⟩
  · rw [upPresses_add N 1, hm1]
    have h1p : (upPresses (upPresses ST0 N).1 1).2 = [[]] := by
      rw [upPresses, upPresses]
      simp only [hlast]
    rw [h1p]
    simp only [Nat.sub_zero]
    have hrev := range_map_getD_reverse L
    rw [hNL] at hrev
    rw [hrev]
  · rw [upPresses_add N 1]
    have h1s : (upPresses (upPresses ST0 N).1 1).1 = (upPresses ST0 N).1 := by
      rw [upPresses, upPresses]
      simp only [hlast]
    rw [h1s, hm6, if_neg (by omega)]
    simp
  · rw [hm6, if_neg (by omega)]
    simp

/-- C6 witness: two one-letter lines a and b; three presses return b, a,
and then nothing, with the recall cursor resting at slot 0. -/
theorem recall_backward_reverse_order_witness :
    (upPresses (runState initState (linesStream [[0x61], [0x62]])) (2 + 1)).2 =
      ([[0x61], [0x62]] : List (List Nat)).reverse ++ [[]] ∧
    (upPresses (runState initState (linesStream [[0x61], [0x62]])) (2 + 1)).1.recallIdx = 0 ∧
    (upPresses (runState initState (linesStream [[0x61], [0x62]])) 2).1.recallIdx = 0 :=
  recall_backward_reverse_order 2 [[0x61], [0x62]] (by norm_num) (by decide) rfl
    (by decide) (fun l hl => by fin_cases hl <;> decide) (by decide)
    (by norm_num [List.nodup_cons])

end Chell
